import Mathlib

/-!
# A shallow embedding of the block-list memory allocator (src/malloc.c)

The allocator manages a singly-linked, append-only list of blocks, each a
metadata record (`size`, `next`, `free`, `debug_flag`) followed by a payload
region.  Blocks are carved from the end of the data segment by `sbrk`, are
never moved and never unlinked, and extension always links the new block at
the tail of the list (this is proved below from the scanner's contract).
Consequently list order, allocation order and address order coincide, and we
represent the heap as a `List MemBlock`; the `next` field is positional (block
`k` links to block `k+1` when it exists, and the last block links to null).
A user pointer is identified by the index of its block; the numeric address
of a block is recovered by `block_addr` below from the base address of the
heap and the sizes of the preceding blocks, which never change.

Payload bytes are a total function `Nat → Nat` from payload offset to byte
value, so that content claims about very large regions remain statable.
`sbrk` is modelled as an oracle `Option (Nat → Nat)`: `none` means the single
growth request an operation may make would be rejected, `some fresh` means it
would succeed and the newly granted payload bytes hold `fresh` (the source
leaves them uninitialized; no theorem depends on them).

`size_t` is 64 bits (LP64): the unchecked multiplication in `zero_allocate`
is taken modulo `2^64`.  Fatal assertion failures are modelled as `none`
results of the operations that can abort.
-/

/-- `sizeof(struct mem_block)` on LP64: `size_t` (8) + pointer (8) +
two `int`s (4+4), no padding. -/
def BLOCK_SIZE : Nat := 24

/-- `size_t` arithmetic is modulo `2^64`. -/
def SIZE_T_MOD : Nat := 2 ^ 64

/-- `debug_flag` sentinel written by `extend_memory`. -/
def TAG_EXTENDED : Nat := 0x12345678

/-- `debug_flag` sentinel written by `allocate_memory` on block reuse. -/
def TAG_REUSED : Nat := 0x77777777

/-- `debug_flag` sentinel written by `release_memory`. -/
def TAG_FREED : Nat := 0x55555555

/-- `struct mem_block` together with its payload region.  The `next` field is
represented positionally by the enclosing list (see the module comment);
`payload` maps payload offsets to byte values and is fixed in extent by
`size`, which is never modified after the block is carved. -/
structure MemBlock where
  size : Nat
  free : Bool
  debug_flag : Nat
  payload : Nat → Nat

/-- The heap: the chain of blocks reachable from `base`, in list order.
`base == NULL` corresponds to the empty list. -/
abbrev Heap := List MemBlock

/-- Replace block `i` by `f` applied to it (in-place mutation of one block's
fields through a `struct mem_block *`). -/
def setBlock (heap : Heap) (i : Nat) (f : MemBlock → MemBlock) : Heap :=
  match heap, i with
  | [], _ => []
  | b :: rest, 0 => f b :: rest
  | b :: rest, n + 1 => b :: setBlock rest n f

/-- Start address of block `i` in a heap whose first block sits at `base`:
every earlier block contributes its metadata plus its payload. -/
def block_addr (base : Nat) (heap : Heap) (i : Nat) : Nat :=
  base + BLOCK_SIZE * i + ((heap.take i).map MemBlock.size).sum

/-- The user pointer for block `i`: the address immediately past the block's
metadata (`block + 1` in the source). -/
def user_addr (base : Nat) (heap : Heap) (i : Nat) : Nat :=
  block_addr base heap i + BLOCK_SIZE

/-- The loop condition of `locate_free_block`, as a predicate on one block:
`current->free && current->size >= size`. -/
def fitsB (size : Nat) (b : MemBlock) : Bool :=
  b.free && decide (size ≤ b.size)

/-- `locate_free_block` (src/malloc.c:46-54).  `heap` is the sublist of
blocks from `current` on, `i` the index of `current`, `last` the index
currently stored in `*last`.  Returns the found block's index (or `none`)
together with the final value of `*last`.  `allocate_memory` calls it with
`i = 0` and `last = 0` (the caller initializes `last = base`). -/
def locate_free_block (heap : Heap) (size : Nat) (i last : Nat) : Option Nat × Nat :=
  match heap with
  | [] => (none, last)
  | b :: rest =>
    if fitsB size b then (some i, last)
    else locate_free_block rest size (i + 1) i

/-- `extend_memory` (src/malloc.c:57-81).  On oracle failure, `sbrk` rejects
the growth request and nothing is mutated.  On success the new block is
carved at the old break — the end of the heap — initialized with
`size`, `next = NULL`, `free = 0`, `debug_flag = 0x12345678`, and linked from
the previous tail (`last->next = block`), which is positional appending
because the caller always passes the tail (proved from the scanner's
contract).  Returns the new heap and the new block's index. -/
def extend_memory (heap : Heap) (size : Nat) (sbrk : Option (Nat → Nat)) :
    Option (Heap × Nat) :=
  match sbrk with
  | none => none
  | some fresh =>
    some (heap ++ [{ size := size, free := false, debug_flag := TAG_EXTENDED,
                     payload := fresh }], heap.length)

/-- Mark a found free block as used: `block->free = 0; block->debug_flag =
0x77777777;` (src/malloc.c:111-112). -/
def markReused (b : MemBlock) : MemBlock :=
  { b with free := false, debug_flag := TAG_REUSED }

/-- `allocate_memory` (src/malloc.c:84-117).  Returns the heap after the call
together with the returned user pointer (`none` = `NULL`, `some i` = the
address just past block `i`'s metadata). -/
def allocate_memory (heap : Heap) (size : Nat) (sbrk : Option (Nat → Nat)) :
    Heap × Option Nat :=
  if size = 0 then (heap, none)
  else
    match heap with
    | [] =>
      match extend_memory [] size sbrk with
      | none => ([], none)
      | some (h, i) => (h, some i)
    | b :: rest =>
      match locate_free_block (b :: rest) size 0 0 with
      | (none, _) =>
        -- The scanner's final `last` names the tail (proved below);
        -- linking `last->next = block` is the positional append
        -- performed by `extend_memory`.
        match extend_memory (b :: rest) size sbrk with
        | none => (b :: rest, none)
        | some (h, i) => (h, some i)
      | (some i, _) => (setBlock (b :: rest) i markReused, some i)

/-- `memset(ptr, 0, n)` on a block's payload. -/
def memsetZero (n : Nat) (b : MemBlock) : MemBlock :=
  { b with payload := fun j => if j < n then 0 else b.payload j }

/-- `zero_allocate` (src/malloc.c:120-127).  The total size is the unchecked
`size_t` product `elements * element_size`, i.e. the product modulo `2^64`. -/
def zero_allocate (heap : Heap) (elements element_size : Nat)
    (sbrk : Option (Nat → Nat)) : Heap × Option Nat :=
  let total_size := elements * element_size % SIZE_T_MOD
  match allocate_memory heap total_size sbrk with
  | (h, none) => (h, none)
  | (h, some i) => (setBlock h i (memsetZero total_size), some i)

/-- `retrieve_block_ptr` (src/malloc.c:130-132): step back one metadata width
from the user pointer to the block's metadata. -/
def retrieve_block_ptr (heap : Heap) (i : Nat) : Option MemBlock :=
  heap[i]?

/-- `release_memory` (src/malloc.c:135-145).  `none` pointer: no-op.
A failed assertion (block already free, or `debug_flag` not one of the two
in-use sentinels) aborts the process: modelled as result `none`.  A pointer
whose block does not exist is undefined behaviour in the source; the model
also maps it to `none`. -/
def release_memory (heap : Heap) (ptr : Option Nat) : Option Heap :=
  match ptr with
  | none => some heap
  | some i =>
    match retrieve_block_ptr heap i with
    | none => none
    | some b =>
      if b.free then none
      else if b.debug_flag = TAG_REUSED ∨ b.debug_flag = TAG_EXTENDED then
        some (setBlock heap i fun bb =>
          { bb with free := true, debug_flag := TAG_FREED })
      else none

/-- `memcpy(new_ptr, ptr, n)` where `src` is the old block: overwrite the
first `n` payload bytes of the destination block with the source's. -/
def memcpyFrom (src : MemBlock) (n : Nat) (dst : MemBlock) : MemBlock :=
  { dst with payload := fun j => if j < n then src.payload j else dst.payload j }

/-- `reallocate_memory` (src/malloc.c:148-169).  Result: `none` = fatal abort
inside `release_memory`; `some (h, none)` = returns `NULL`;
`some (h, some j)` = returns the user pointer of block `j`. -/
def reallocate_memory (heap : Heap) (ptr : Option Nat) (size : Nat)
    (sbrk : Option (Nat → Nat)) : Option (Heap × Option Nat) :=
  match ptr with
  | none => some (allocate_memory heap size sbrk)
  | some i =>
    match retrieve_block_ptr heap i with
    | none => none
    | some b =>
      if size ≤ b.size then some (heap, some i)
      else
        match allocate_memory heap size sbrk with
        | (h, none) => some (h, none)
        | (h, some j) =>
          -- memcpy reads `block_ptr->size` and the old payload from the
          -- current heap state (block `i` is unchanged by the allocation,
          -- but the model reads the current state as the source does).
          match retrieve_block_ptr h i with
          | none => none
          | some b2 =>
            let h2 := setBlock h j (memcpyFrom b2 b2.size)
            match release_memory h2 (some i) with
            | none => none
            | some h3 => some (h3, some j)

/-- A block index holds a live in-use block: it exists, its free flag is
clear, and its tag is one of the two in-use sentinels. -/
def InUse (heap : Heap) (i : Nat) : Prop :=
  ∃ b, heap[i]? = some b ∧ b.free = false ∧
    (b.debug_flag = TAG_EXTENDED ∨ b.debug_flag = TAG_REUSED)

/-- Some block in the heap satisfies the scanner's condition. -/
def hasFit (heap : Heap) (size : Nat) : Bool :=
  heap.any (fitsB size)

/-! ## Helper lemmas about `setBlock` and addresses -/

theorem setBlock_length (f : MemBlock → MemBlock) :
    ∀ (heap : Heap) (i : Nat), (setBlock heap i f).length = heap.length := by
  intro heap
  induction heap with
  | nil => intro i; rfl
  | cons hd tl ih =>
    intro i
    cases i with
    | zero => rfl
    | succ n => simpa [setBlock] using ih n

theorem setBlock_getElem?_eq (f : MemBlock → MemBlock) :
    ∀ (heap : Heap) (i : Nat), (setBlock heap i f)[i]? = (heap[i]?).map f := by
  intro heap
  induction heap with
  | nil => intro i; cases i <;> simp [setBlock]
  | cons hd tl ih =>
    intro i
    cases i with
    | zero => simp [setBlock]
    | succ n => simpa [setBlock] using ih n

theorem setBlock_getElem?_ne (f : MemBlock → MemBlock) :
    ∀ (heap : Heap) (i j : Nat), i ≠ j → (setBlock heap i f)[j]? = heap[j]? := by
  intro heap
  induction heap with
  | nil => intro i j _; cases i <;> simp [setBlock]
  | cons hd tl ih =>
    intro i j hne
    cases i with
    | zero =>
      cases j with
      | zero => exact absurd rfl hne
      | succ m => simp [setBlock]
    | succ n =>
      cases j with
      | zero => simp [setBlock]
      | succ m =>
        have : n ≠ m := fun h => hne (by simp [h])
        simpa [setBlock] using ih n m this

theorem setBlock_map_size (f : MemBlock → MemBlock)
    (hf : ∀ b, (f b).size = b.size) :
    ∀ (heap : Heap) (i : Nat),
      (setBlock heap i f).map MemBlock.size = heap.map MemBlock.size := by
  intro heap
  induction heap with
  | nil => intro i; rfl
  | cons hd tl ih =>
    intro i
    cases i with
    | zero => simp [setBlock, hf]
    | succ n => simpa [setBlock] using ih n

theorem block_addr_congr (base : Nat) (h1 h2 : Heap) (i : Nat)
    (hs : h1.map MemBlock.size = h2.map MemBlock.size) :
    block_addr base h1 i = block_addr base h2 i := by
  unfold block_addr
  rw [List.map_take, List.map_take, hs]

theorem block_addr_append (base : Nat) (heap ext : Heap) (i : Nat)
    (hi : i ≤ heap.length) :
    block_addr base (heap ++ ext) i = block_addr base heap i := by
  unfold block_addr
  rw [List.take_append_of_le_length hi]

theorem sum_take_mono (l : List Nat) (i j : Nat) (hij : i ≤ j) :
    (l.take i).sum ≤ (l.take j).sum := by
  have : l.take j = l.take i ++ (l.drop i).take (j - i) := by
    rw [← List.take_add]
    congr 1
    omega
  rw [this, List.sum_append]
  exact Nat.le_add_right _ _

theorem block_addr_strictMono (base : Nat) (heap : Heap) (i j : Nat)
    (hij : i < j) : block_addr base heap i < block_addr base heap j := by
  unfold block_addr
  have h1 : ((heap.map MemBlock.size).take i).sum ≤
      ((heap.map MemBlock.size).take j).sum :=
    sum_take_mono _ i j (Nat.le_of_lt hij)
  rw [← List.map_take, ← List.map_take] at *
  have h2 : BLOCK_SIZE * i + BLOCK_SIZE ≤ BLOCK_SIZE * j := by
    have : BLOCK_SIZE * (i + 1) ≤ BLOCK_SIZE * j :=
      Nat.mul_le_mul_left _ hij
    simpa [Nat.mul_add] using this
  simp only [BLOCK_SIZE] at *
  omega

theorem user_addr_inj (base : Nat) (heap : Heap) (i j : Nat)
    (hij : i ≠ j) : user_addr base heap i ≠ user_addr base heap j := by
  unfold user_addr
  rcases Nat.lt_trichotomy i j with h | h | h
  · have := block_addr_strictMono base heap i j h
    omega
  · exact absurd h hij
  · have := block_addr_strictMono base heap j i h
    omega

/-! ## Scanner lemmas -/

theorem locate_none_no_fit (s : Nat) :
    ∀ (heap : Heap) (i last : Nat),
      (locate_free_block heap s i last).1 = none →
      ∀ (k : Nat) (b : MemBlock), heap[k]? = some b → fitsB s b = false := by
  intro heap
  induction heap with
  | nil => intro i last _ k b hk; simp at hk
  | cons hd tl ih =>
    intro i last hloc k b hk
    by_cases hfit : fitsB s hd
    · simp [locate_free_block, hfit] at hloc
    · cases k with
      | zero =>
        simp only [List.getElem?_cons_zero, Option.some.injEq] at hk
        subst hk
        exact Bool.eq_false_iff.mpr hfit
      | succ k =>
        simp only [locate_free_block, if_neg hfit] at hloc
        exact ih (i + 1) i hloc k b (by simpa using hk)

theorem locate_none_last (s : Nat) :
    ∀ (heap : Heap) (i last : Nat), heap ≠ [] →
      (locate_free_block heap s i last).1 = none →
      (locate_free_block heap s i last).2 = i + heap.length - 1 := by
  intro heap
  induction heap with
  | nil => intro i last h _; exact absurd rfl h
  | cons hd tl ih =>
    intro i last _ hloc
    by_cases hfit : fitsB s hd
    · simp [locate_free_block, hfit] at hloc
    · simp only [locate_free_block, if_neg hfit] at hloc ⊢
      cases tl with
      | nil => simp [locate_free_block]
      | cons b2 tl2 =>
        have := ih (i + 1) i (by simp) hloc
        rw [this]
        simp
        omega

theorem locate_some_firstFit (s : Nat) :
    ∀ (heap : Heap) (i last r : Nat),
      (locate_free_block heap s i last).1 = some r →
      ∃ k, r = i + k ∧ ∃ b, heap[k]? = some b ∧ fitsB s b = true ∧
        ∀ m, m < k → ∀ b', heap[m]? = some b' → fitsB s b' = false := by
  intro heap
  induction heap with
  | nil => intro i last r h; simp [locate_free_block] at h
  | cons hd tl ih =>
    intro i last r hloc
    by_cases hfit : fitsB s hd
    · refine ⟨0, ?_, hd, by simp, hfit, fun m hm => by omega⟩
      simp [locate_free_block, hfit] at hloc
      omega
    · simp only [locate_free_block, if_neg hfit] at hloc
      obtain ⟨k, hr, b, hk, hb, hmin⟩ := ih (i + 1) i r hloc
      refine ⟨k + 1, by omega, b, by simpa using hk, hb, ?_⟩
      intro m hm b' hm'
      cases m with
      | zero =>
        simp only [List.getElem?_cons_zero, Option.some.injEq] at hm'
        subst hm'
        exact Bool.eq_false_iff.mpr hfit
      | succ m => exact hmin m (by omega) b' (by simpa using hm')

theorem locate_finds_first (s : Nat) :
    ∀ (heap : Heap) (i last k : Nat) (b : MemBlock),
      heap[k]? = some b → fitsB s b = true →
      (∀ m, m < k → ∀ b', heap[m]? = some b' → fitsB s b' = false) →
      (locate_free_block heap s i last).1 = some (i + k) := by
  intro heap
  induction heap with
  | nil => intro i last k b hk; simp at hk
  | cons hd tl ih =>
    intro i last k b hk hfit hmin
    cases k with
    | zero =>
      simp only [List.getElem?_cons_zero, Option.some.injEq] at hk
      subst hk
      simp [locate_free_block, hfit]
    | succ k =>
      have hhd : fitsB s hd = false := hmin 0 (by omega) hd (by simp)
      simp only [locate_free_block, hhd, Bool.false_eq_true, if_false]
      have := ih (i + 1) i k b (by simpa using hk) hfit
        (fun m hm b' hm' => hmin (m + 1) (by omega) b' (by simpa using hm'))
      rw [this]
      congr 1
      omega

theorem hasFit_iff (heap : Heap) (s : Nat) :
    hasFit heap s = true ↔
      ∃ (k : Nat) (b : MemBlock), heap[k]? = some b ∧ fitsB s b = true := by
  unfold hasFit
  rw [List.any_eq_true]
  constructor
  · rintro ⟨b, hb, hfit⟩
    obtain ⟨k, hk⟩ := List.get_of_mem hb
    exact ⟨k, b, by rw [List.getElem?_eq_getElem k.isLt]; simp [← List.get_eq_getElem, hk], hfit⟩
  · rintro ⟨k, b, hk, hfit⟩
    rw [List.getElem?_eq_some] at hk
    obtain ⟨hklt, rfl⟩ := hk
    exact ⟨_, List.getElem_mem hklt, hfit⟩

/-! ## Allocator lemmas -/

theorem locate_none_iff (heap : Heap) (s i last : Nat) :
    (locate_free_block heap s i last).1 = none ↔ hasFit heap s = false := by
  constructor
  · intro h
    rw [← Bool.not_eq_true, hasFit_iff]
    rintro ⟨k, b, hk, hfit⟩
    have := locate_none_no_fit s heap i last h k b hk
    rw [this] at hfit
    exact absurd hfit (by simp)
  · intro h
    cases hl : (locate_free_block heap s i last).1 with
    | none => rfl
    | some r =>
      obtain ⟨k, _, b, hk, hfit, _⟩ := locate_some_firstFit s heap i last r hl
      have : hasFit heap s = true := (hasFit_iff heap s).mpr ⟨k, b, hk, hfit⟩
      rw [this] at h
      exact absurd h (by simp)

theorem alloc_failure_iff (heap : Heap) (s : Nat) (sbrk : Option (Nat → Nat)) :
    (allocate_memory heap s sbrk).2 = none ↔
      s = 0 ∨ (sbrk = none ∧ hasFit heap s = false) := by
  by_cases hs : s = 0
  · simp [allocate_memory, hs]
  · cases heap with
    | nil =>
      cases sbrk with
      | none => simp [allocate_memory, hs, extend_memory, hasFit]
      | some f => simp [allocate_memory, hs, extend_memory]
    | cons b rest =>
      rcases hl : locate_free_block (b :: rest) s 0 0 with ⟨found, last⟩
      have hfitiff := locate_none_iff (b :: rest) s 0 0
      rw [hl] at hfitiff
      cases found with
      | none =>
        have hnofit : hasFit (b :: rest) s = false := hfitiff.mp rfl
        cases sbrk with
        | none => simp [allocate_memory, hs, hl, extend_memory, hnofit]
        | some f => simp [allocate_memory, hs, hl, extend_memory, hnofit]
      | some i =>
        have hfit : hasFit (b :: rest) s = true := by
          rcases Bool.eq_false_or_eq_true (hasFit (b :: rest) s) with h | h
          · exact h
          · exact absurd (hfitiff.mpr h) (by simp)
        simp [allocate_memory, hs, hl, hfit]

theorem alloc_none_heap (heap : Heap) (s : Nat) (sbrk : Option (Nat → Nat)) :
    (allocate_memory heap s sbrk).2 = none →
    (allocate_memory heap s sbrk).1 = heap := by
  intro h
  by_cases hs : s = 0
  · simp [allocate_memory, hs]
  · cases heap with
    | nil =>
      cases sbrk with
      | none => simp [allocate_memory, hs, extend_memory]
      | some f => simp [allocate_memory, hs, extend_memory] at h
    | cons b rest =>
      rcases hl : locate_free_block (b :: rest) s 0 0 with ⟨found, last⟩
      cases found with
      | none =>
        cases sbrk with
        | none => simp [allocate_memory, hs, hl, extend_memory]
        | some f => simp [allocate_memory, hs, hl, extend_memory] at h
      | some i => simp [allocate_memory, hs, hl] at h

theorem alloc_success_cases (heap h : Heap) (s : Nat) (sbrk : Option (Nat → Nat))
    (i : Nat) :
    allocate_memory heap s sbrk = (h, some i) →
    s ≠ 0 ∧
    ((∃ b : MemBlock, heap[i]? = some b ∧ fitsB s b = true ∧
        (∀ m, m < i → ∀ b', heap[m]? = some b' → fitsB s b' = false) ∧
        h = setBlock heap i markReused)
      ∨ (i = heap.length ∧ hasFit heap s = false ∧
          ∃ fresh, sbrk = some fresh ∧
            h = heap ++ [{ size := s, free := false, debug_flag := TAG_EXTENDED,
                           payload := fresh }])) := by
  intro halloc
  by_cases hs : s = 0
  · simp [allocate_memory, hs] at halloc
  · refine ⟨hs, ?_⟩
    cases heap with
    | nil =>
      cases sbrk with
      | none => simp [allocate_memory, hs, extend_memory] at halloc
      | some f =>
        right
        simp only [allocate_memory, if_neg hs, extend_memory] at halloc
        rw [Prod.mk.injEq] at halloc
        obtain ⟨hh, hi⟩ := halloc
        have h0 : ([] : Heap).length = i := by simpa using hi
        exact ⟨h0.symm, by simp [hasFit], f, rfl, by simp [← hh]⟩
    | cons b rest =>
      rcases hl : locate_free_block (b :: rest) s 0 0 with ⟨found, last⟩
      have hfitiff := locate_none_iff (b :: rest) s 0 0
      rw [hl] at hfitiff
      cases found with
      | some k =>
        left
        simp only [allocate_memory, if_neg hs, hl] at halloc
        rw [Prod.mk.injEq] at halloc
        obtain ⟨hh, hk⟩ := halloc
        have hki : k = i := by simpa using hk
        subst hki
        obtain ⟨k', hr, b', hk', hfit', hmin'⟩ :=
          locate_some_firstFit s (b :: rest) 0 0 k (by rw [hl])
        have : k' = k := by omega
        subst this
        exact ⟨b', hk', hfit', hmin', hh.symm⟩
      | none =>
        right
        have hnofit : hasFit (b :: rest) s = false := hfitiff.mp rfl
        cases sbrk with
        | none => simp [allocate_memory, hs, hl, extend_memory] at halloc
        | some f =>
          simp only [allocate_memory, if_neg hs, hl, extend_memory] at halloc
          rw [Prod.mk.injEq] at halloc
          obtain ⟨hh, hi⟩ := halloc
          have : (b :: rest).length = i := by simpa using hi
          exact ⟨this.symm, hnofit, f, rfl, hh.symm⟩

theorem getElem?_append_left_of_some {l1 l2 : Heap} {n : Nat} {b : MemBlock}
    (h : l1[n]? = some b) : (l1 ++ l2)[n]? = some b := by
  rw [List.getElem?_append]
  simp [(List.getElem?_eq_some.mp h).1, h]

theorem alloc_first_fit (heap : Heap) (s : Nat) (sbrk : Option (Nat → Nat))
    (i : Nat) (b : MemBlock)
    (hs : s ≠ 0)
    (hk : heap[i]? = some b) (hfit : fitsB s b = true)
    (hmin : ∀ m, m < i → ∀ b', heap[m]? = some b' → fitsB s b' = false) :
    allocate_memory heap s sbrk = (setBlock heap i markReused, some i) := by
  cases heap with
  | nil => simp at hk
  | cons hd tl =>
    have hloc : (locate_free_block (hd :: tl) s 0 0).1 = some (0 + i) :=
      locate_finds_first s (hd :: tl) 0 0 i b hk hfit hmin
    rcases hl : locate_free_block (hd :: tl) s 0 0 with ⟨found, last⟩
    rw [hl] at hloc
    have hfound : found = some i := by simpa using hloc
    subst hfound
    simp [allocate_memory, hs, hl]

theorem alloc_preserves_block (heap : Heap) (s : Nat) (sbrk : Option (Nat → Nat))
    (j : Nat) (b : MemBlock) (hj : heap[j]? = some b) (hfree : b.free = false) :
    (allocate_memory heap s sbrk).1[j]? = some b := by
  rcases halloc : allocate_memory heap s sbrk with ⟨h1, r⟩
  cases r with
  | none =>
    have h2 := alloc_none_heap heap s sbrk (by rw [halloc])
    rw [halloc] at h2
    have h3 : h1 = heap := h2
    rw [h3]
    exact hj
  | some i =>
    obtain ⟨-, hcases⟩ := alloc_success_cases heap h1 s sbrk i halloc
    rcases hcases with ⟨b', hk', hfit', -, rfl⟩ | ⟨-, -, fresh, -, rfl⟩
    · have hne : i ≠ j := by
        intro hij
        subst hij
        rw [hj] at hk'
        cases hk'
        simp [fitsB, hfree] at hfit'
      rw [setBlock_getElem?_ne markReused heap i j hne]
      exact hj
    · exact getElem?_append_left_of_some hj

theorem alloc_success_block (heap h : Heap) (s : Nat) (sbrk : Option (Nat → Nat))
    (i : Nat) (halloc : allocate_memory heap s sbrk = (h, some i)) :
    ∃ b : MemBlock, h[i]? = some b ∧ s ≤ b.size ∧ b.free = false ∧
      (b.debug_flag = TAG_EXTENDED ∨ b.debug_flag = TAG_REUSED) := by
  obtain ⟨-, hcases⟩ := alloc_success_cases heap h s sbrk i halloc
  rcases hcases with ⟨b, hk, hfit, -, rfl⟩ | ⟨hi, -, fresh, -, rfl⟩
  · refine ⟨markReused b, ?_, ?_, rfl, Or.inr rfl⟩
    · rw [setBlock_getElem?_eq, hk]
      rfl
    · have hfit2 : b.free = true ∧ s ≤ b.size := by simpa [fitsB] using hfit
      simpa [markReused] using hfit2.2
  · subst hi
    refine ⟨{ size := s, free := false, debug_flag := TAG_EXTENDED,
              payload := fresh }, ?_, Nat.le_refl s, rfl, Or.inl rfl⟩
    rw [List.getElem?_concat_length]

/-! ## Deallocator lemmas -/

theorem release_success (heap : Heap) (i : Nat) (b : MemBlock)
    (hk : heap[i]? = some b) (hfree : b.free = false)
    (htag : b.debug_flag = TAG_REUSED ∨ b.debug_flag = TAG_EXTENDED) :
    release_memory heap (some i) =
      some (setBlock heap i fun bb =>
        { bb with free := true, debug_flag := TAG_FREED }) := by
  rcases htag with h | h <;>
    simp [release_memory, retrieve_block_ptr, hk, hfree, h]

theorem release_abort_iff (heap : Heap) (i : Nat) (b : MemBlock)
    (hk : heap[i]? = some b) :
    release_memory heap (some i) = none ↔
      (b.free = true ∨
        (b.debug_flag ≠ TAG_EXTENDED ∧ b.debug_flag ≠ TAG_REUSED)) := by
  simp only [release_memory, retrieve_block_ptr, hk]
  by_cases hfree : b.free = true
  · simp [hfree]
  · by_cases htag : b.debug_flag = TAG_REUSED ∨ b.debug_flag = TAG_EXTENDED
    · simp [hfree, htag]
      tauto
    · simp [hfree, htag]
      tauto

theorem fitsB_iff (s : Nat) (b : MemBlock) :
    fitsB s b = true ↔ b.free = true ∧ s ≤ b.size := by
  simp [fitsB]

theorem fitsB_false_iff (s : Nat) (b : MemBlock) :
    fitsB s b = false ↔ ¬(b.free = true ∧ s ≤ b.size) := by
  rw [Bool.eq_false_iff]
  exact not_congr (fitsB_iff s b)

/-! ## The claims -/

/-- C1: for every block list reachable from the base and every requested size
`s`, `locate_free_block` returns the first block in list order whose free
flag is set and whose recorded size is at least `s`, or `none` if no block
qualifies; and whenever it returns `none` on a nonempty list, its
last-visited out-parameter is the final block of the list (the tail). -/
theorem locate_free_block_contract (heap : Heap) (s : Nat) :
    (∀ i : Nat, (locate_free_block heap s 0 0).1 = some i →
        ∃ b : MemBlock, heap[i]? = some b ∧ b.free = true ∧ s ≤ b.size ∧
          ∀ m, m < i → ∀ b' : MemBlock, heap[m]? = some b' →
            ¬(b'.free = true ∧ s ≤ b'.size))
    ∧ ((locate_free_block heap s 0 0).1 = none →
        (∀ (k : Nat) (b : MemBlock), heap[k]? = some b →
            ¬(b.free = true ∧ s ≤ b.size))
        ∧ (heap ≠ [] → (locate_free_block heap s 0 0).2 = heap.length - 1)) := by
  constructor
  · intro i hi
    obtain ⟨k, hk0, b, hkb, hfit, hmin⟩ := locate_some_firstFit s heap 0 0 i hi
    have hk : k = i := by omega
    subst hk
    have hfit2 := (fitsB_iff s b).mp hfit
    refine ⟨b, hkb, hfit2.1, hfit2.2, ?_⟩
    intro m hm b' hb'
    exact (fitsB_false_iff s b').mp (hmin m hm b' hb')
  · intro hnone
    refine ⟨?_, ?_⟩
    · intro k b hk
      exact (fitsB_false_iff s b).mp (locate_none_no_fit s heap 0 0 hnone k b hk)
    · intro hne
      simpa using locate_none_last s heap 0 0 hne hnone

/-- Witness for C1: a heap with an in-use block followed by a free block of
size 10; searching for 5 returns the second block, which is the first fit. -/
theorem locate_free_block_contract_witness :
    ∃ b : MemBlock,
      ([⟨4, false, TAG_EXTENDED, fun _ => 0⟩,
        ⟨10, true, TAG_FREED, fun _ => 0⟩] : Heap)[1]? = some b ∧
      b.free = true ∧ 5 ≤ b.size ∧
      ∀ m, m < 1 → ∀ b' : MemBlock,
        ([⟨4, false, TAG_EXTENDED, fun _ => 0⟩,
          ⟨10, true, TAG_FREED, fun _ => 0⟩] : Heap)[m]? = some b' →
        ¬(b'.free = true ∧ 5 ≤ b'.size) :=
  (locate_free_block_contract
    [⟨4, false, TAG_EXTENDED, fun _ => 0⟩,
     ⟨10, true, TAG_FREED, fun _ => 0⟩] 5).1 1 rfl

/-- C2: `allocate_memory` returns `NULL` exactly when the size is zero or the
(needed) memory-growth request is rejected; on success it returns a payload
region of at least `s` bytes at the address immediately past the block's
metadata. -/
theorem allocate_memory_contract (heap : Heap) (s : Nat)
    (sbrk : Option (Nat → Nat)) (base : Nat) :
    ((allocate_memory heap s sbrk).2 = none ↔
      s = 0 ∨ (sbrk = none ∧ hasFit heap s = false))
    ∧ (∀ i : Nat, (allocate_memory heap s sbrk).2 = some i →
        (∃ b : MemBlock, (allocate_memory heap s sbrk).1[i]? = some b ∧
          s ≤ b.size)
        ∧ user_addr base (allocate_memory heap s sbrk).1 i =
            block_addr base (allocate_memory heap s sbrk).1 i + BLOCK_SIZE) := by
  refine ⟨alloc_failure_iff heap s sbrk, ?_⟩
  intro i hi
  rcases halloc : allocate_memory heap s sbrk with ⟨h1, r⟩
  rw [halloc] at hi
  have hr : r = some i := hi
  subst hr
  obtain ⟨b, hb, hsz, -, -⟩ := alloc_success_block heap h1 s sbrk i halloc
  exact ⟨⟨b, hb, hsz⟩, rfl⟩

/-- Witness for C2: allocating 5 bytes from the empty heap with a granted
growth request succeeds with a block of at least 5 bytes. -/
theorem allocate_memory_contract_witness :
    (∃ b : MemBlock,
        (allocate_memory [] 5 (some fun _ => 0)).1[0]? = some b ∧ 5 ≤ b.size)
    ∧ user_addr 4096 (allocate_memory [] 5 (some fun _ => 0)).1 0 =
        block_addr 4096 (allocate_memory [] 5 (some fun _ => 0)).1 0
          + BLOCK_SIZE :=
  (allocate_memory_contract [] 5 (some fun _ => 0) 4096).2 0 rfl

theorem release_success_inv (heap heap' : Heap) (i : Nat) (b : MemBlock)
    (hk : heap[i]? = some b)
    (hrel : release_memory heap (some i) = some heap') :
    b.free = false ∧
    (b.debug_flag = TAG_REUSED ∨ b.debug_flag = TAG_EXTENDED) ∧
    heap' = setBlock heap i fun bb =>
      { bb with free := true, debug_flag := TAG_FREED } := by
  simp only [release_memory, retrieve_block_ptr, hk] at hrel
  by_cases hfree : b.free = true
  · rw [if_pos hfree] at hrel
    cases hrel
  · have hfree' : b.free = false := by simpa using hfree
    rw [if_neg hfree] at hrel
    by_cases htag : b.debug_flag = TAG_REUSED ∨ b.debug_flag = TAG_EXTENDED
    · rw [if_pos htag] at hrel
      exact ⟨hfree', htag, (Option.some.inj hrel).symm⟩
    · rw [if_neg htag] at hrel
      cases hrel

/-- C3: after releasing pointer `p` whose block has capacity `c`, an
allocation of `s ≤ c` that finds `p`'s block as the first free fitting block
in list order returns exactly the address `p`. -/
theorem release_then_allocate_same_address (heap heap' : Heap) (i : Nat)
    (b : MemBlock) (s : Nat) (sbrk : Option (Nat → Nat)) (base : Nat)
    (hk : heap[i]? = some b)
    (hrel : release_memory heap (some i) = some heap')
    (hs : 0 < s) (hsc : s ≤ b.size)
    (hfirst : ∀ m, m < i → ∀ b' : MemBlock, heap'[m]? = some b' →
        ¬(b'.free = true ∧ s ≤ b'.size)) :
    (allocate_memory heap' s sbrk).2 = some i ∧
    user_addr base (allocate_memory heap' s sbrk).1 i =
      user_addr base heap i := by
  obtain ⟨hfree, htag, hh'⟩ := release_success_inv heap heap' i b hk hrel
  have hk' : heap'[i]? =
      some { b with free := true, debug_flag := TAG_FREED } := by
    rw [hh', setBlock_getElem?_eq, hk]
    rfl
  have hfit : fitsB s { b with free := true, debug_flag := TAG_FREED } = true := by
    simp [fitsB, hsc]
  have hmin : ∀ m, m < i → ∀ b' : MemBlock, heap'[m]? = some b' →
      fitsB s b' = false := fun m hm b' hb' =>
    (fitsB_false_iff s b').mpr (hfirst m hm b' hb')
  have halloc := alloc_first_fit heap' s sbrk i _ (by omega) hk' hfit hmin
  rw [halloc]
  refine ⟨rfl, ?_⟩
  unfold user_addr
  congr 1
  apply block_addr_congr
  have h1 : (setBlock heap' i markReused).map MemBlock.size =
      heap'.map MemBlock.size :=
    setBlock_map_size markReused (fun _ => rfl) heap' i
  have h2 : heap'.map MemBlock.size = heap.map MemBlock.size := by
    rw [hh']
    exact setBlock_map_size
      (fun bb => { bb with free := true, debug_flag := TAG_FREED })
      (fun _ => rfl) heap i
  exact h1.trans h2

/-- Witness for C3: release the only (in-use, size 10) block, then allocate
10 bytes: the same address comes back. -/
theorem release_then_allocate_same_address_witness :
    (allocate_memory [⟨10, true, TAG_FREED, fun _ => 0⟩] 10 none).2 = some 0 ∧
    user_addr 4096
        (allocate_memory [⟨10, true, TAG_FREED, fun _ => 0⟩] 10 none).1 0 =
      user_addr 4096 [⟨10, false, TAG_EXTENDED, fun _ => 0⟩] 0 :=
  release_then_allocate_same_address
    [⟨10, false, TAG_EXTENDED, fun _ => 0⟩]
    [⟨10, true, TAG_FREED, fun _ => 0⟩]
    0 ⟨10, false, TAG_EXTENDED, fun _ => 0⟩ 10 none 4096
    rfl rfl (by decide) (by decide)
    (fun m hm => absurd hm (by omega))

/-- C4: reallocating to a size the block's recorded capacity already covers
returns the same pointer and leaves the entire heap — the block's metadata
and payload included — unchanged. -/
theorem reallocate_within_capacity_noop (heap : Heap) (i : Nat) (b : MemBlock)
    (s : Nat) (sbrk : Option (Nat → Nat))
    (hk : heap[i]? = some b) (hsc : s ≤ b.size) :
    reallocate_memory heap (some i) s sbrk = some (heap, some i) := by
  simp [reallocate_memory, retrieve_block_ptr, hk, hsc]

/-- Witness for C4: shrinking request on a 10-byte in-use block is an exact
no-op. -/
theorem reallocate_within_capacity_noop_witness :
    reallocate_memory [⟨10, false, TAG_EXTENDED, fun _ => 0⟩] (some 0) 3 none =
      some ([⟨10, false, TAG_EXTENDED, fun _ => 0⟩], some 0) :=
  reallocate_within_capacity_noop [⟨10, false, TAG_EXTENDED, fun _ => 0⟩] 0
    ⟨10, false, TAG_EXTENDED, fun _ => 0⟩ 3 none rfl (by decide)

theorem alloc_some_ne_inuse (heap h1 : Heap) (s : Nat)
    (sbrk : Option (Nat → Nat)) (i j : Nat) (b : MemBlock)
    (hk : heap[i]? = some b) (hfree : b.free = false)
    (halloc : allocate_memory heap s sbrk = (h1, some j)) : j ≠ i := by
  obtain ⟨-, hcases⟩ := alloc_success_cases heap h1 s sbrk j halloc
  rcases hcases with ⟨b', hk', hfit', -, -⟩ | ⟨hj, -, -⟩
  · intro hji
    subst hji
    rw [hk] at hk'
    cases hk'
    simp [fitsB, hfree] at hfit'
  · intro hji
    subst hji
    subst hj
    have := (List.getElem?_eq_some.mp hk).1
    omega

/-- C5: reallocating a live block to a strictly larger size, when the new
allocation succeeds, returns a different address, copies the old payload's
first `c` bytes into the new region, and leaves the old block free with the
freed sentinel tag. -/
theorem reallocate_grow_moves (heap : Heap) (i : Nat) (b : MemBlock) (s : Nat)
    (sbrk : Option (Nat → Nat)) (h1 : Heap) (j : Nat) (base : Nat)
    (hk : heap[i]? = some b)
    (hfree : b.free = false)
    (htag : b.debug_flag = TAG_EXTENDED ∨ b.debug_flag = TAG_REUSED)
    (hgrow : b.size < s)
    (halloc : allocate_memory heap s sbrk = (h1, some j)) :
    ∃ (h' : Heap) (bj : MemBlock),
      reallocate_memory heap (some i) s sbrk = some (h', some j) ∧
      j ≠ i ∧ user_addr base h' j ≠ user_addr base h' i ∧
      h'[j]? = some bj ∧ (∀ l, l < b.size → bj.payload l = b.payload l) ∧
      h'[i]? = some { b with free := true, debug_flag := TAG_FREED } := by
  have hji : j ≠ i := alloc_some_ne_inuse heap h1 s sbrk i j b hk hfree halloc
  have hi1 : h1[i]? = some b := by
    have := alloc_preserves_block heap s sbrk i b hk hfree
    rw [halloc] at this
    exact this
  obtain ⟨bj0, hj1, -, -, -⟩ := alloc_success_block heap h1 s sbrk j halloc
  -- the heap after the memcpy into the new block
  have h2eq : setBlock h1 j (memcpyFrom b b.size) =
      setBlock h1 j (memcpyFrom b b.size) := rfl
  set h2 := setBlock h1 j (memcpyFrom b b.size) with hh2
  have hi2 : h2[i]? = some b := by
    rw [hh2, setBlock_getElem?_ne _ h1 j i hji]
    exact hi1
  have hrel : release_memory h2 (some i) =
      some (setBlock h2 i fun bb =>
        { bb with free := true, debug_flag := TAG_FREED }) :=
    release_success h2 i b hi2 hfree (htag.symm)
  refine ⟨setBlock h2 i fun bb =>
      { bb with free := true, debug_flag := TAG_FREED },
    memcpyFrom b b.size bj0, ?_, hji, ?_, ?_, ?_, ?_⟩
  · simp only [reallocate_memory, retrieve_block_ptr, hk,
      if_neg (by omega : ¬ s ≤ b.size), halloc, hi1, hh2, hrel]
  · exact user_addr_inj base _ j i hji
  · rw [setBlock_getElem?_ne _ h2 i j (Ne.symm hji), hh2,
      setBlock_getElem?_eq, hj1]
    rfl
  · intro l hl
    simp [memcpyFrom, hl]
  · rw [setBlock_getElem?_eq, hi2]
    rfl

/-- Witness for C5: grow the single live 4-byte block to 9 bytes with a
granted growth request; the data moves to the fresh block and the old block
is freed. -/
theorem reallocate_grow_moves_witness :
    ∃ (h' : Heap) (bj : MemBlock),
      reallocate_memory [⟨4, false, TAG_EXTENDED, fun l => l + 7⟩] (some 0) 9
          (some fun _ => 0) = some (h', some 1) ∧
      (1 : Nat) ≠ 0 ∧
      user_addr 4096 h' 1 ≠ user_addr 4096 h' 0 ∧
      h'[1]? = some bj ∧
      (∀ l, l < (4 : Nat) → bj.payload l = (fun l => l + 7) l) ∧
      h'[0]? = some ⟨4, true, TAG_FREED, fun l => l + 7⟩ :=
  reallocate_grow_moves [⟨4, false, TAG_EXTENDED, fun l => l + 7⟩] 0
    ⟨4, false, TAG_EXTENDED, fun l => l + 7⟩ 9 (some fun _ => 0)
    ([⟨4, false, TAG_EXTENDED, fun l => l + 7⟩] ++
      [⟨9, false, TAG_EXTENDED, fun _ => 0⟩]) 1 4096
    rfl rfl (Or.inl rfl) (by decide) rfl

/-- C6: if growth is needed but the internal allocation fails,
`reallocate_memory` returns `NULL` and the heap — the old block's payload,
size, free flag and tag included — is exactly as before the call. -/
theorem reallocate_grow_fail_unchanged (heap : Heap) (i : Nat) (b : MemBlock)
    (s : Nat) (sbrk : Option (Nat → Nat))
    (hk : heap[i]? = some b) (_hfree : b.free = false) (hgrow : b.size < s)
    (hfail : (allocate_memory heap s sbrk).2 = none) :
    reallocate_memory heap (some i) s sbrk = some (heap, none) := by
  have hh := alloc_none_heap heap s sbrk hfail
  rcases halloc : allocate_memory heap s sbrk with ⟨h1, r⟩
  rw [halloc] at hfail hh
  have hr : r = none := hfail
  subst hr
  have h1eq : h1 = heap := hh
  subst h1eq
  simp only [reallocate_memory, retrieve_block_ptr, hk,
    if_neg (by omega : ¬ s ≤ b.size), halloc]

/-- Witness for C6: growing the single live 4-byte block to 9 bytes while
`sbrk` refuses leaves the heap untouched and returns `NULL`. -/
theorem reallocate_grow_fail_unchanged_witness :
    reallocate_memory [⟨4, false, TAG_EXTENDED, fun l => l + 7⟩] (some 0) 9
        none =
      some ([⟨4, false, TAG_EXTENDED, fun l => l + 7⟩], none) :=
  reallocate_grow_fail_unchanged [⟨4, false, TAG_EXTENDED, fun l => l + 7⟩] 0
    ⟨4, false, TAG_EXTENDED, fun l => l + 7⟩ 9 none rfl rfl (by decide) rfl

/-- C7 counterexample: at `n = 2^32`, `k = 2^32 + 1` the product overflows
`size_t`.  `zero_allocate` succeeds, but the single block of the resulting
heap records size `2^32`, and a region of `n × k` bytes would need
`2^32 * (2^32 + 1) ≤ 2^32`, which is false: the returned region does not
have `n × k` bytes. -/
theorem zero_allocate_nk_counterexample :
    (zero_allocate [] (2 ^ 32) (2 ^ 32 + 1) (some fun _ => 1)).2 = some 0 ∧
    ((zero_allocate [] (2 ^ 32) (2 ^ 32 + 1) (some fun _ => 1)).1.map
        MemBlock.size) = [2 ^ 32] ∧
    ¬ (2 ^ 32 * (2 ^ 32 + 1) ≤ 2 ^ 32) :=
  ⟨rfl, rfl, by norm_num⟩

/-- C7 (amended): whenever `zero_allocate n k` succeeds, it returns a region
of `n * k % 2^64` bytes (the unchecked `size_t` product) in which every byte
is zero. -/
theorem zero_allocate_zeroes (heap : Heap) (n k : Nat)
    (sbrk : Option (Nat → Nat)) (h : Heap) (i : Nat)
    (hz : zero_allocate heap n k sbrk = (h, some i)) :
    ∃ b : MemBlock, h[i]? = some b ∧ n * k % SIZE_T_MOD ≤ b.size ∧
      ∀ l, l < n * k % SIZE_T_MOD → b.payload l = 0 := by
  rcases halloc : allocate_memory heap (n * k % SIZE_T_MOD) sbrk with ⟨h1, r⟩
  simp only [zero_allocate, halloc] at hz
  cases r with
  | none => cases hz
  | some i0 =>
    rw [Prod.mk.injEq] at hz
    obtain ⟨hh, hi⟩ := hz
    have hi0 : i0 = i := by simpa using hi
    subst hi0
    subst hh
    obtain ⟨b0, hb0, hsz0, -, -⟩ :=
      alloc_success_block heap h1 (n * k % SIZE_T_MOD) sbrk i0 halloc
    refine ⟨memsetZero (n * k % SIZE_T_MOD) b0, ?_, ?_, ?_⟩
    · rw [setBlock_getElem?_eq, hb0]
      rfl
    · simpa [memsetZero] using hsz0
    · intro l hl
      simp [memsetZero, hl]

/-- Witness for C7's amended theorem: `zero_allocate 1 2` from the empty heap
over nonzero fresh bytes yields a 2-byte region of zeros. -/
theorem zero_allocate_zeroes_witness :
    ∃ b : MemBlock,
      (zero_allocate [] 1 2 (some fun _ => 9)).1[0]? = some b ∧
      1 * 2 % SIZE_T_MOD ≤ b.size ∧
      ∀ l, l < 1 * 2 % SIZE_T_MOD → b.payload l = 0 :=
  zero_allocate_zeroes [] 1 2 (some fun _ => 9)
    (zero_allocate [] 1 2 (some fun _ => 9)).1 0 rfl

/-- C8: the total size in `zero_allocate` is the unchecked fixed-width
product `n * k % 2^64`; exactly that value is passed to the allocator and to
the zero-fill, with no overflow validation, so overflowing inputs silently
yield a too-small total. -/
theorem zero_allocate_unchecked_product :
    (∀ (heap : Heap) (n k : Nat) (sbrk : Option (Nat → Nat)),
        (zero_allocate heap n k sbrk).2 =
          (allocate_memory heap (n * k % SIZE_T_MOD) sbrk).2)
    ∧ (∀ (n k : Nat) (f : Nat → Nat), n * k % SIZE_T_MOD ≠ 0 →
        zero_allocate [] n k (some f) =
          ([{ size := n * k % SIZE_T_MOD, free := false,
              debug_flag := TAG_EXTENDED,
              payload := fun j => if j < n * k % SIZE_T_MOD then 0
                else f j }], some 0))
    ∧ 2 ^ 32 * (2 ^ 32 + 1) % SIZE_T_MOD < 2 ^ 32 * (2 ^ 32 + 1) := by
  refine ⟨?_, ?_, ?_⟩
  · intro heap n k sbrk
    rcases halloc : allocate_memory heap (n * k % SIZE_T_MOD) sbrk with ⟨h1, r⟩
    simp only [zero_allocate, halloc]
    cases r <;> simp
  · intro n k f hne
    simp only [zero_allocate, allocate_memory, extend_memory, if_neg hne,
      List.nil_append, setBlock, memsetZero]
    rfl
  · norm_num [SIZE_T_MOD]

/-- Witness for C8: at `n = 3`, `k = 4` the product 12 is what the allocator
and the zero-fill both receive. -/
theorem zero_allocate_unchecked_product_witness :
    (zero_allocate [] 3 4 none).2 =
      (allocate_memory [] (3 * 4 % SIZE_T_MOD) none).2 ∧
    zero_allocate [] 3 4 (some fun _ => 5) =
      ([{ size := 3 * 4 % SIZE_T_MOD, free := false,
          debug_flag := TAG_EXTENDED,
          payload := fun j => if j < 3 * 4 % SIZE_T_MOD then 0 else 5 }],
        some 0) :=
  ⟨zero_allocate_unchecked_product.1 [] 3 4 none,
    zero_allocate_unchecked_product.2.1 3 4 (fun _ => 5) (by decide)⟩

/-- C9: releasing the null pointer is a no-op leaving the heap unchanged;
releasing a live block carrying one of the two in-use sentinel tags sets its
free flag and rewrites its tag to the freed sentinel; and release aborts
(assertion failure) exactly when the block is already marked free or its tag
is not one of the two in-use sentinels. -/
theorem release_memory_contract (heap : Heap) :
    release_memory heap none = some heap ∧
    ∀ (i : Nat) (b : MemBlock), heap[i]? = some b →
      ((b.free = false →
          (b.debug_flag = TAG_EXTENDED ∨ b.debug_flag = TAG_REUSED) →
          release_memory heap (some i) =
            some (setBlock heap i fun bb =>
              { bb with free := true, debug_flag := TAG_FREED }) ∧
          (setBlock heap i fun bb =>
              { bb with free := true, debug_flag := TAG_FREED })[i]? =
            some { b with free := true, debug_flag := TAG_FREED })
        ∧ (release_memory heap (some i) = none ↔
            b.free = true ∨
              (b.debug_flag ≠ TAG_EXTENDED ∧ b.debug_flag ≠ TAG_REUSED))) := by
  refine ⟨rfl, ?_⟩
  intro i b hk
  refine ⟨fun hfree htag =>
    ⟨release_success heap i b hk hfree htag.symm, ?_⟩,
    release_abort_iff heap i b hk⟩
  rw [setBlock_getElem?_eq, hk]
  rfl

/-- Witness for C9: releasing the single reused in-use block frees it and
rewrites its tag to the freed sentinel. -/
theorem release_memory_contract_witness :
    release_memory [⟨4, false, TAG_REUSED, fun _ => 0⟩] (some 0) =
      some (setBlock [⟨4, false, TAG_REUSED, fun _ => 0⟩] 0 fun bb =>
        { bb with free := true, debug_flag := TAG_FREED }) ∧
    (setBlock [⟨4, false, TAG_REUSED, fun _ => 0⟩] 0 fun bb =>
        { bb with free := true, debug_flag := TAG_FREED })[0]? =
      some ⟨4, true, TAG_FREED, fun _ => 0⟩ :=
  ((release_memory_contract [⟨4, false, TAG_REUSED, fun _ => 0⟩]).2 0
    ⟨4, false, TAG_REUSED, fun _ => 0⟩ rfl).1 rfl (Or.inr rfl)

/-! ## In-use invariant machinery (C10) -/

theorem inuse_alloc_new (heap h : Heap) (s : Nat) (sbrk : Option (Nat → Nat))
    (i : Nat) (halloc : allocate_memory heap s sbrk = (h, some i)) :
    InUse h i := by
  obtain ⟨b, hb, -, hfree, htag⟩ := alloc_success_block heap h s sbrk i halloc
  exact ⟨b, hb, hfree, htag⟩

theorem inuse_alloc_preserve (heap : Heap) (s : Nat)
    (sbrk : Option (Nat → Nat)) (j : Nat) (hj : InUse heap j) :
    InUse (allocate_memory heap s sbrk).1 j := by
  obtain ⟨b, hb, hfree, htag⟩ := hj
  exact ⟨b, alloc_preserves_block heap s sbrk j b hb hfree, hfree, htag⟩

theorem inuse_setBlock_preserving (heap : Heap) (i : Nat)
    (f : MemBlock → MemBlock)
    (hfr : ∀ b, (f b).free = b.free) (htg : ∀ b, (f b).debug_flag = b.debug_flag)
    (j : Nat) (hj : InUse heap j) : InUse (setBlock heap i f) j := by
  obtain ⟨b, hb, hfree, htag⟩ := hj
  by_cases hij : i = j
  · subst hij
    refine ⟨f b, ?_, ?_, ?_⟩
    · rw [setBlock_getElem?_eq, hb]
      rfl
    · rw [hfr b, hfree]
    · rw [htg b]
      exact htag
  · exact ⟨b, by rw [setBlock_getElem?_ne f heap i j hij]; exact hb, hfree, htag⟩

theorem inuse_zero_new (heap h : Heap) (n k : Nat)
    (sbrk : Option (Nat → Nat)) (i : Nat)
    (hz : zero_allocate heap n k sbrk = (h, some i)) : InUse h i := by
  rcases halloc : allocate_memory heap (n * k % SIZE_T_MOD) sbrk with ⟨h1, r⟩
  simp only [zero_allocate, halloc] at hz
  cases r with
  | none => cases hz
  | some i0 =>
    rw [Prod.mk.injEq] at hz
    obtain ⟨hh, hi⟩ := hz
    have hi0 : i0 = i := by simpa using hi
    subst hi0
    subst hh
    exact inuse_setBlock_preserving h1 i0 (memsetZero (n * k % SIZE_T_MOD))
      (fun _ => rfl) (fun _ => rfl) i0
      (inuse_alloc_new heap h1 (n * k % SIZE_T_MOD) sbrk i0 halloc)

theorem inuse_zero_preserve (heap h : Heap) (n k : Nat)
    (sbrk : Option (Nat → Nat)) (r : Option Nat)
    (hz : zero_allocate heap n k sbrk = (h, r))
    (j : Nat) (hj : InUse heap j) : InUse h j := by
  rcases halloc : allocate_memory heap (n * k % SIZE_T_MOD) sbrk with ⟨h1, r1⟩
  simp only [zero_allocate, halloc] at hz
  have hj1 : InUse h1 j := by
    have := inuse_alloc_preserve heap (n * k % SIZE_T_MOD) sbrk j hj
    rw [halloc] at this
    exact this
  cases r1 with
  | none =>
    rw [Prod.mk.injEq] at hz
    rw [← hz.1]
    exact hj1
  | some i0 =>
    rw [Prod.mk.injEq] at hz
    rw [← hz.1]
    exact inuse_setBlock_preserving h1 i0 (memsetZero (n * k % SIZE_T_MOD))
      (fun _ => rfl) (fun _ => rfl) j hj1

theorem inuse_release_preserve (heap h' : Heap) (i : Nat)
    (hrel : release_memory heap (some i) = some h')
    (j : Nat) (hij : j ≠ i) (hj : InUse heap j) : InUse h' j := by
  rcases hkk : heap[i]? with _ | b
  · simp [release_memory, retrieve_block_ptr, hkk] at hrel
  · obtain ⟨-, -, hh'⟩ := release_success_inv heap h' i b hkk hrel
    subst hh'
    obtain ⟨bj, hbj, hfree, htag⟩ := hj
    refine ⟨bj, ?_, hfree, htag⟩
    rw [setBlock_getElem?_ne _ heap i j (Ne.symm hij)]
    exact hbj

theorem realloc_some_ptr_cases (heap : Heap) (i : Nat) (b : MemBlock) (s : Nat)
    (sbrk : Option (Nat → Nat)) (h' : Heap) (p : Nat)
    (hk : heap[i]? = some b)
    (hre : reallocate_memory heap (some i) s sbrk = some (h', some p)) :
    (s ≤ b.size ∧ h' = heap ∧ p = i) ∨
    (b.size < s ∧ ∃ (h1 : Heap) (b2 : MemBlock),
      allocate_memory heap s sbrk = (h1, some p) ∧
      h1[i]? = some b2 ∧
      release_memory (setBlock h1 p (memcpyFrom b2 b2.size)) (some i) =
        some h') := by
  simp only [reallocate_memory, retrieve_block_ptr, hk] at hre
  by_cases hsc : s ≤ b.size
  · rw [if_pos hsc] at hre
    left
    have heq := Option.some.inj hre
    rw [Prod.mk.injEq] at heq
    exact ⟨hsc, heq.1.symm, (Option.some.inj heq.2).symm⟩
  · rw [if_neg hsc] at hre
    right
    refine ⟨by omega, ?_⟩
    rcases halloc : allocate_memory heap s sbrk with ⟨h1, r⟩
    rw [halloc] at hre
    cases r with
    | none =>
      have heq := Option.some.inj hre
      rw [Prod.mk.injEq] at heq
      cases heq.2
    | some j =>
      rcases hb2 : h1[i]? with _ | b2
      · simp [hb2] at hre
      · simp only [hb2] at hre
        rcases hrel : release_memory (setBlock h1 j (memcpyFrom b2 b2.size))
            (some i) with _ | h3
        · simp [hrel] at hre
        · simp only [hrel, Option.some.injEq, Prod.mk.injEq] at hre
          obtain ⟨hh3, hjp⟩ := hre
          have hpj : j = p := by simpa using hjp
          subst hpj
          refine ⟨h1, b2, rfl, hb2, ?_⟩
          rw [hrel, hh3]

theorem realloc_null_result (heap : Heap) (ptr : Option Nat) (s : Nat)
    (sbrk : Option (Nat → Nat)) (h' : Heap)
    (hre : reallocate_memory heap ptr s sbrk = some (h', none)) : h' = heap := by
  cases ptr with
  | none =>
    have h0 : allocate_memory heap s sbrk = (h', none) := by
      simpa [reallocate_memory] using hre
    have := alloc_none_heap heap s sbrk (by rw [h0])
    rw [h0] at this
    exact this
  | some i =>
    rcases hk : heap[i]? with _ | b
    · simp [reallocate_memory, retrieve_block_ptr, hk] at hre
    · simp only [reallocate_memory, retrieve_block_ptr, hk] at hre
      by_cases hsc : s ≤ b.size
      · rw [if_pos hsc] at hre
        have heq := Option.some.inj hre
        rw [Prod.mk.injEq] at heq
        cases heq.2
      · rw [if_neg hsc] at hre
        rcases halloc : allocate_memory heap s sbrk with ⟨h1, r⟩
        rw [halloc] at hre
        cases r with
        | none =>
          have heq := Option.some.inj hre
          rw [Prod.mk.injEq] at heq
          have h1h : h1 = heap := by
            have := alloc_none_heap heap s sbrk (by rw [halloc])
            rw [halloc] at this
            exact this
          rw [← heq.1, h1h]
        | some j =>
          rcases hb2 : h1[i]? with _ | b2
          · simp [hb2] at hre
          · simp only [hb2] at hre
            rcases hrel : release_memory (setBlock h1 j (memcpyFrom b2 b2.size))
                (some i) with _ | h3
            · simp [hrel] at hre
            · simp [hrel] at hre

theorem inuse_realloc (heap : Heap) (ptr : Option Nat) (s : Nat)
    (sbrk : Option (Nat → Nat)) (h' : Heap) (p : Nat)
    (hre : reallocate_memory heap ptr s sbrk = some (h', some p))
    (hlive : ∀ i, ptr = some i → InUse heap i) :
    InUse h' p ∧ ∀ j, ptr ≠ some j → InUse heap j → InUse h' j := by
  cases ptr with
  | none =>
    have h0 : allocate_memory heap s sbrk = (h', some p) := by
      simpa [reallocate_memory] using hre
    refine ⟨inuse_alloc_new heap h' s sbrk p h0, ?_⟩
    intro j _ hj
    have := inuse_alloc_preserve heap s sbrk j hj
    rw [h0] at this
    exact this
  | some i =>
    obtain ⟨b, hb, hfree, htag⟩ := hlive i rfl
    rcases realloc_some_ptr_cases heap i b s sbrk h' p hb hre with
      ⟨hsc, rfl, rfl⟩ | ⟨hgrow, h1, b2, halloc, hb2, hrel⟩
    · exact ⟨⟨b, hb, hfree, htag⟩, fun j _ hj => hj⟩
    · have hpi : p ≠ i :=
        alloc_some_ne_inuse heap h1 s sbrk i p b hb hfree halloc
      have hIp : InUse h1 p := inuse_alloc_new heap h1 s sbrk p halloc
      have hIp2 : InUse (setBlock h1 p (memcpyFrom b2 b2.size)) p :=
        inuse_setBlock_preserving h1 p (memcpyFrom b2 b2.size)
          (fun _ => rfl) (fun _ => rfl) p hIp
      refine ⟨inuse_release_preserve _ h' i hrel p hpi hIp2, ?_⟩
      intro j hj hIj
      have hji : j ≠ i := fun hh => hj (by rw [hh])
      have h1j : InUse h1 j := by
        have := inuse_alloc_preserve heap s sbrk j hIj
        rw [halloc] at this
        exact this
      have h2j : InUse (setBlock h1 p (memcpyFrom b2 b2.size)) j :=
        inuse_setBlock_preserving h1 p (memcpyFrom b2 b2.size)
          (fun _ => rfl) (fun _ => rfl) j h1j
      exact inuse_release_preserve _ h' i hrel j hji h2j

/-- C10: every pointer returned by `allocate_memory`, `zero_allocate` or
`reallocate_memory` addresses, one metadata width back, a block whose free
flag is clear and whose tag is one of the two in-use sentinels
(freshly-extended `0x12345678` or reused `0x77777777`); and every operation
preserves this for all live user pointers (the pointer being released, or
superseded by a growing reallocation, excepted). -/
theorem live_pointer_invariant :
    (∀ (heap h : Heap) (s : Nat) (sbrk : Option (Nat → Nat)) (r : Option Nat),
        allocate_memory heap s sbrk = (h, r) →
        (∀ i, r = some i → InUse h i) ∧ ∀ j, InUse heap j → InUse h j)
    ∧ (∀ (heap h : Heap) (n k : Nat) (sbrk : Option (Nat → Nat))
          (r : Option Nat),
        zero_allocate heap n k sbrk = (h, r) →
        (∀ i, r = some i → InUse h i) ∧ ∀ j, InUse heap j → InUse h j)
    ∧ (∀ (heap h' : Heap) (ptr : Option Nat),
        release_memory heap ptr = some h' →
        ∀ j, ptr ≠ some j → InUse heap j → InUse h' j)
    ∧ (∀ (heap h' : Heap) (ptr : Option Nat) (s : Nat)
          (sbrk : Option (Nat → Nat)) (r : Option Nat),
        reallocate_memory heap ptr s sbrk = some (h', r) →
        (∀ i, ptr = some i → InUse heap i) →
        (∀ p, r = some p → InUse h' p) ∧
          ∀ j, ptr ≠ some j → InUse heap j → InUse h' j) := by
  refine ⟨?_, ?_, ?_, ?_⟩
  · intro heap h s sbrk r halloc
    constructor
    · intro i hr
      subst hr
      exact inuse_alloc_new heap h s sbrk i halloc
    · intro j hj
      have := inuse_alloc_preserve heap s sbrk j hj
      rw [halloc] at this
      exact this
  · intro heap h n k sbrk r hz
    constructor
    · intro i hr
      subst hr
      exact inuse_zero_new heap h n k sbrk i hz
    · exact inuse_zero_preserve heap h n k sbrk r hz
  · intro heap h' ptr hrel j hj hIj
    cases ptr with
    | none =>
      have : h' = heap := (Option.some.inj hrel).symm
      rw [this]
      exact hIj
    | some i =>
      have hji : j ≠ i := fun hh => hj (by rw [hh])
      exact inuse_release_preserve heap h' i hrel j hji hIj
  · intro heap h' ptr s sbrk r hre hlive
    cases r with
    | none =>
      have : h' = heap := realloc_null_result heap ptr s sbrk h' hre
      subst this
      exact ⟨fun p hp => (nomatch hp), fun j _ hj => hj⟩
    | some p =>
      obtain ⟨h1, h2⟩ := inuse_realloc heap ptr s sbrk h' p hre hlive
      exact ⟨fun q hq => (Option.some.inj hq) ▸ h1, h2⟩

/-- Witness for C10: a first allocation of 5 bytes yields an in-use block
with the freshly-extended sentinel. -/
theorem live_pointer_invariant_witness :
    (∀ i, (some 0 : Option Nat) = some i →
        InUse (allocate_memory [] 5 (some fun _ => 0)).1 i) ∧
    ∀ j, InUse [] j → InUse (allocate_memory [] 5 (some fun _ => 0)).1 j :=
  live_pointer_invariant.1 [] (allocate_memory [] 5 (some fun _ => 0)).1 5
    (some fun _ => 0) (some 0) rfl
